import Mathlib

/-!
# Verification of the GHGA datahub-test-bed S3 upload/download pipeline

Shallow embedding of `src/s3_upload_test.py`: the Crypt4GH-style streaming
encryptor/decryptor, the segment splitter, the part-size adapter, the range
planner, the checksum accumulator, and the multipart-upload transaction's
call behaviour.

Modelling conventions:
* A byte string is a `List Nat` (Python `bytes`; values are unconstrained
  since no claim depends on the byte range).
* The AEAD primitive (`crypto_aead_chacha20poly1305_ietf_encrypt` /
  `crypt4gh.lib.decrypt_block`), an external collaborator, is abstracted as
  an opaque segment-encryption function `enc` (covering the random nonce,
  ciphertext and tag, 28 bytes of overhead) and an opaque inverse `dec`;
  round-trip theorems take `dec (enc s) = s` and
  `(enc s).length = s.length + 28` as hypotheses.
* Hash objects (`hashlib.sha256`/`md5`) are modelled by the exact byte
  stream absorbed so far (`hashlib` guarantees the digest depends only on
  that stream); final digests are an opaque function of that stream.
* Python `int` is arbitrary precision, so arithmetic is exact `Nat`
  arithmetic; `a / b` float comparisons in the source are modelled by the
  equivalent exact comparisons.
* Generators are modelled by accumulating the yielded parts in a list, and
  the S3 storage collaborator by a trace of issued calls whose outcomes are
  prescribed by a `Backend` oracle.
-/

/-- `crypt4gh.lib.SEGMENT_SIZE`: plaintext segment size of the cipher. -/
def SEGMENT_SIZE : Nat := 65536

/-- `crypt4gh.lib.CIPHER_SEGMENT_SIZE = SEGMENT_SIZE + 28`: nonce (12) +
ciphertext + MAC tag (16). -/
def CIPHER_SEGMENT_SIZE : Nat := SEGMENT_SIZE + 28

/-- Container for checksum calculation (`class Checksums`).
`unencrypted_msg` is the byte stream absorbed so far by the running
`unencrypted_sha256` hash object; the two lists hold the per-part digests
appended by `update_encrypted` (digest values, one per ciphertext part). -/
structure Checksums where
  unencrypted_msg : List Nat
  encrypted_md5 : List Nat
  encrypted_sha256 : List Nat
deriving Repr, DecidableEq

/-- `Checksums.__init__`. -/
def Checksums.start : Checksums := ⟨[], [], []⟩

/-- `Checksums.update_unencrypted`: absorb a part into the running plaintext
hash. -/
def Checksums.update_unencrypted (c : Checksums) (part : List Nat) : Checksums :=
  { c with unencrypted_msg := c.unencrypted_msg ++ part }

/-- `Checksums.update_encrypted`: append the MD5 and SHA-256 digests of one
ciphertext part.  `md5H`/`shaH` are the opaque digest functions. -/
def Checksums.update_encrypted (md5H shaH : List Nat → Nat) (c : Checksums)
    (part : List Nat) : Checksums :=
  { c with
    encrypted_md5 := c.encrypted_md5 ++ [md5H part]
    encrypted_sha256 := c.encrypted_sha256 ++ [shaH part] }

/-- `Checksums.get`: the triple returned at the end of processing —
(hexdigest of the running plaintext hash, per-part MD5 list, per-part
SHA-256 list).  `sha256H` is the opaque digest function of the absorbed
stream. -/
def Checksums.get (sha256H : List Nat → Nat) (c : Checksums) :
    Nat × List Nat × List Nat :=
  (sha256H c.unencrypted_msg, c.encrypted_md5, c.encrypted_sha256)

/-- `get_segments(part, segment_size)`: chunk `part` into full segments of
exactly `segment_size` bytes plus the trailing incomplete remainder.
`num_segments = len(part) / segment_size` (exact), `full_segments` its
floor, and the remainder is non-empty exactly when `math.ceil(num_segments)`
differs from the floor. -/
def get_segments (part : List Nat) (segment_size : Nat) :
    List (List Nat) × List Nat :=
  let full_segments := part.length / segment_size
  let segments := (List.range full_segments).map
    (fun i => (part.drop (i * segment_size)).take segment_size)
  let incomplete_segment :=
    if (part.length + segment_size - 1) / segment_size ≠ full_segments then
      part.drop (full_segments * segment_size)
    else []
  (segments, incomplete_segment)

/-- `get_ranges(file_size, part_size)`: inclusive byte ranges of width
`part_size` covering `[0, file_size)`, the final range truncated. -/
def get_ranges (file_size : Nat) (part_size : Nat) : List (Nat × Nat) :=
  let num_parts_floor := file_size / part_size
  let byte_ranges := (List.range num_parts_floor).map
    (fun part_no => (part_size * part_no, part_size * (part_no + 1) - 1))
  if (file_size + part_size - 1) / part_size ≠ num_parts_floor then
    byte_ranges ++ [(part_size * num_parts_floor, file_size - 1)]
  else
    byte_ranges

/-- `check_adjust_part_size(config, file_size)`: convert the configured part
size from MiB to bytes, clamp it to the S3 bounds, and enlarge it along the
fixed candidate list when the part count would exceed 9995.  Returns `none`
for the `ValueError` ("could not find a valid part size") and
`some part_size_bytes` for the value stored back into `config.part_size`.
`lower_bound = 5 * 1024**2` (5 MiB), the S3 minimum part size. -/
def lower_bound : Nat := 5 * 1024 ^ 2

/-- `upper_bound = 5 * 1024**3` (5 GiB), the S3 maximum part size. -/
def upper_bound : Nat := 5 * 1024 ^ 3

/-- The initial clamp step of `check_adjust_part_size`: MiB to bytes, then
clamp into `[lower_bound, upper_bound]`. -/
def clamp_part_size (config_part_size_mib : Nat) : Nat :=
  let part_size := config_part_size_mib * 1024 ^ 2
  if part_size < lower_bound then lower_bound
  else if part_size > upper_bound then upper_bound
  else part_size

/-- `sizes = [size * 1024**2 for size in [2**x for x in range(3, 13)]]`:
the fixed candidate part sizes, 8 MiB up to 4096 MiB in powers of two. -/
def candidate_sizes : List Nat :=
  ((List.range 10).map (fun x => 2 ^ (x + 3))).map
    (fun size => size * 1024 ^ 2)

def check_adjust_part_size (config_part_size_mib : Nat) (file_size : Nat) :
    Option Nat :=
  let part_size := clamp_part_size config_part_size_mib
  if 9995 * part_size < file_size then
    match candidate_sizes.find? (fun candidate_size =>
        decide (part_size < candidate_size) &&
        decide (file_size ≤ 9995 * candidate_size)) with
    | some candidate_size => some candidate_size
    | none => none
  else
    some part_size

/-- A `while len(buffer) >= part_size` drain loop: returns the list of
`part_size`-sized slices taken off the front of `buffer`, in order, and the
remaining buffer.  (The guard also requires `0 < part_size`; the source
never runs with a zero part size.) -/
def drain (part_size : Nat) (buffer : List Nat) : List (List Nat) × List Nat :=
  if h : 0 < part_size ∧ part_size ≤ buffer.length then
    let rest := drain part_size (buffer.drop part_size)
    (buffer.take part_size :: rest.1, rest.2)
  else
    ([], buffer)
termination_by buffer.length
decreasing_by
  simp only [List.length_drop]
  omega

/-- State threaded through `Encryptor.process_file`: the instance fields of
`Encryptor` plus the loop-local buffers and the parts yielded so far. -/
structure EncryptorState where
  unprocessed_bytes : List Nat
  upload_buffer : List Nat
  checksums : Checksums
  encrypted_file_size : Nat
  parts : List (List Nat)
deriving Repr

namespace Encryptor

/-- `Encryptor._encrypt`: split into full `SEGMENT_SIZE` segments, encrypt
each with the opaque segment encryption `enc`, return the joined ciphertext
and the incomplete trailing segment. -/
def encryptBuffer (enc : List Nat → List Nat) (part : List Nat) :
    List Nat × List Nat :=
  let r := get_segments part SEGMENT_SIZE
  ((r.1.map enc).flatten, r.2)

/-- One iteration of the `for file_part in read_file_parts(...)` loop of
`Encryptor.process_file`. -/
def process_chunk (enc : List Nat → List Nat) (md5H shaH : List Nat → Nat)
    (part_size : Nat) (st : EncryptorState) (file_part : List Nat) :
    EncryptorState :=
  let checksums := st.checksums.update_unencrypted file_part
  let combined := st.unprocessed_bytes ++ file_part
  let er := encryptBuffer enc combined
  let upload_buffer := st.upload_buffer ++ er.1
  if part_size ≤ upload_buffer.length then
    { unprocessed_bytes := er.2
      upload_buffer := upload_buffer.drop part_size
      checksums := checksums.update_encrypted md5H shaH
        (upload_buffer.take part_size)
      encrypted_file_size := st.encrypted_file_size + part_size
      parts := st.parts ++ [upload_buffer.take part_size] }
  else
    { unprocessed_bytes := er.2
      upload_buffer := upload_buffer
      checksums := checksums
      encrypted_file_size := st.encrypted_file_size
      parts := st.parts }

/-- The code after the input loop of `Encryptor.process_file`: encrypt the
dangling plaintext remainder as a final short segment, drain the upload
buffer in `part_size` slices, and yield the final undersized tail. -/
def finish (enc : List Nat → List Nat) (md5H shaH : List Nat → Nat)
    (part_size : Nat) (st : EncryptorState) : EncryptorState :=
  let upload_buffer :=
    if st.unprocessed_bytes ≠ [] then
      st.upload_buffer ++ enc st.unprocessed_bytes
    else st.upload_buffer
  let d := drain part_size upload_buffer
  let checksums := d.1.foldl (Checksums.update_encrypted md5H shaH) st.checksums
  let encrypted_file_size := st.encrypted_file_size + part_size * d.1.length
  let parts := st.parts ++ d.1
  if d.2 ≠ [] then
    { unprocessed_bytes := []
      upload_buffer := []
      checksums := checksums.update_encrypted md5H shaH d.2
      encrypted_file_size := encrypted_file_size + d.2.length
      parts := parts ++ [d.2] }
  else
    { unprocessed_bytes := []
      upload_buffer := d.2
      checksums := checksums
      encrypted_file_size := encrypted_file_size
      parts := parts }

/-- Initial `Encryptor` state (`__init__` with `encrypted_file_size = 0`,
fresh checksums, empty buffers). -/
def start : EncryptorState :=
  { unprocessed_bytes := []
    upload_buffer := []
    checksums := Checksums.start
    encrypted_file_size := 0
    parts := [] }

/-- `Encryptor.process_file`, with the generator's yields accumulated in
`parts`: `chunks` is the sequence produced by `read_file_parts`. -/
def process_file (enc : List Nat → List Nat) (md5H shaH : List Nat → Nat)
    (part_size : Nat) (chunks : List (List Nat)) : EncryptorState :=
  finish enc md5H shaH part_size
    (chunks.foldl (process_chunk enc md5H shaH part_size) start)

end Encryptor

/-- The full ciphertext of one plaintext byte stream, produced in one shot:
encrypt every full `SEGMENT_SIZE` segment, then the short trailing segment
if present.  (This is `Encryptor._encrypt` applied to the whole input plus
the dangling-bytes encryption step; used as the reference stream for the
no-loss/no-duplication statements.) -/
def fullCipher (enc : List Nat → List Nat) (data : List Nat) : List Nat :=
  let r := Encryptor.encryptBuffer enc data
  r.1 ++ (if r.2 = [] then [] else enc r.2)

/-- State threaded through `Decryptor.process_parts`. -/
structure DecryptorState where
  unprocessed_bytes : List Nat
  download_buffer : List Nat
  checksums : Checksums
deriving Repr

namespace Decryptor

/-- `Decryptor._decrypt`: split into full `CIPHER_SEGMENT_SIZE` cipher
segments, decrypt each with the opaque segment decryption `dec`, return the
joined plaintext and the incomplete trailing cipher segment. -/
def decryptBuffer (dec : List Nat → List Nat) (part : List Nat) :
    List Nat × List Nat :=
  let r := get_segments part CIPHER_SEGMENT_SIZE
  ((r.1.map dec).flatten, r.2)

/-- One iteration of the `for part_number, file_part in enumerate(...)` loop
of `Decryptor.process_parts`: per-part ciphertext checksums, decryption of
the full cipher segments, and at most one `part_size` slice drained into the
plaintext hash (the source uses `if`, not `while`, here). -/
def process_chunk (dec : List Nat → List Nat) (md5H shaH : List Nat → Nat)
    (part_size : Nat) (st : DecryptorState) (file_part : List Nat) :
    DecryptorState :=
  let checksums := st.checksums.update_encrypted md5H shaH file_part
  let combined := st.unprocessed_bytes ++ file_part
  let dr := decryptBuffer dec combined
  let download_buffer := st.download_buffer ++ dr.1
  if part_size ≤ download_buffer.length then
    { unprocessed_bytes := dr.2
      download_buffer := download_buffer.drop part_size
      checksums := checksums.update_unencrypted
        (download_buffer.take part_size) }
  else
    { unprocessed_bytes := dr.2
      download_buffer := download_buffer
      checksums := checksums }

/-- Variant of `process_chunk` whose drain step is a `while` loop instead of
the source's single `if` slice (compared against the source in the
checksum-grouping independence claim). -/
def process_chunk_whileDrain (dec : List Nat → List Nat)
    (md5H shaH : List Nat → Nat) (part_size : Nat) (st : DecryptorState)
    (file_part : List Nat) : DecryptorState :=
  let checksums := st.checksums.update_encrypted md5H shaH file_part
  let combined := st.unprocessed_bytes ++ file_part
  let dr := decryptBuffer dec combined
  let download_buffer := st.download_buffer ++ dr.1
  let d := drain part_size download_buffer
  { unprocessed_bytes := dr.2
    download_buffer := d.2
    checksums := d.1.foldl Checksums.update_unencrypted checksums }

/-- The code after the download loop of `Decryptor.process_parts`: decrypt
the dangling cipher-segment remainder via `_decrypt_segment`, drain the
buffer in `part_size` slices into the plaintext hash, then absorb the final
undersized tail. -/
def finish (dec : List Nat → List Nat) (part_size : Nat)
    (st : DecryptorState) : DecryptorState :=
  let download_buffer :=
    if st.unprocessed_bytes ≠ [] then
      st.download_buffer ++ dec st.unprocessed_bytes
    else st.download_buffer
  let d := drain part_size download_buffer
  let checksums := d.1.foldl Checksums.update_unencrypted st.checksums
  if d.2 ≠ [] then
    { unprocessed_bytes := []
      download_buffer := []
      checksums := checksums.update_unencrypted d.2 }
  else
    { unprocessed_bytes := []
      download_buffer := []
      checksums := checksums }

/-- Initial `Decryptor` state. -/
def start : DecryptorState :=
  { unprocessed_bytes := []
    download_buffer := []
    checksums := Checksums.start }

/-- `Decryptor.process_parts` over the downloaded chunks. -/
def process_parts (dec : List Nat → List Nat) (md5H shaH : List Nat → Nat)
    (part_size : Nat) (chunks : List (List Nat)) : DecryptorState :=
  finish dec part_size
    (chunks.foldl (process_chunk dec md5H shaH part_size) start)

/-- `process_parts` with the per-iteration `while`-loop drain variant. -/
def process_parts_whileDrain (dec : List Nat → List Nat)
    (md5H shaH : List Nat → Nat) (part_size : Nat)
    (chunks : List (List Nat)) : DecryptorState :=
  finish dec part_size
    (chunks.foldl (process_chunk_whileDrain dec md5H shaH part_size) start)

end Decryptor

/-- The one-shot reference plaintext recovered from a ciphertext stream:
decrypt every full `CIPHER_SEGMENT_SIZE` segment, then the short trailing
cipher segment if present. -/
def fullPlain (dec : List Nat → List Nat) (ct : List Nat) : List Nat :=
  let r := Decryptor.decryptBuffer dec ct
  r.1 ++ (if r.2 = [] then [] else dec r.2)

/-- `ChunkedDownloader.validate_checksums`: `true` means the run proceeds,
`false` means the `ValueError("Checksum mismatch: ...")` is raised. -/
def validate_checksums (sha256H : List Nat → Nat)
    (target_checksums checkums : Checksums) : Bool :=
  decide (target_checksums.get sha256H = checkums.get sha256H)

/-- The calls `s3_upload_test.py` issues against the object-storage
collaborator and the raw part transfer (`SESSION.put`). -/
inductive S3Call where
  | initUpload : S3Call
  | partUrl : Nat → S3Call
  | putPart : Nat → S3Call
  | completeUpload : S3Call
  | abortUpload : S3Call
deriving Repr, DecidableEq, BEq

/-- Outcome oracle for the storage collaborator: whether each external call
succeeds or raises. -/
structure Backend where
  partUrlOk : Nat → Bool
  putOk : Nat → Bool
  completeOk : Bool

/-- `MultipartUpload.send_part`: request the part upload URL, transmit the
bytes; on any failure of either step, issue one abort and re-raise (`false`
result).  Returns the trace of issued calls in order. -/
def MultipartUpload.send_part (b : Backend) (part_number : Nat) :
    List S3Call × Bool :=
  if b.partUrlOk part_number then
    if b.putOk part_number then
      ([S3Call.partUrl part_number, S3Call.putPart part_number], true)
    else
      ([S3Call.partUrl part_number, S3Call.putPart part_number,
        S3Call.abortUpload], false)
  else
    ([S3Call.partUrl part_number, S3Call.abortUpload], false)

/-- `MultipartUpload.__aexit__`: always attempt `complete_multipart_upload`;
if that attempt raises, issue an abort and re-raise.  (The source does not
inspect the exception information passed to `__aexit__`.) -/
def MultipartUpload.aexit (b : Backend) : List S3Call × Bool :=
  if b.completeOk then
    ([S3Call.completeUpload], true)
  else
    ([S3Call.completeUpload, S3Call.abortUpload], false)

/-- The `for part_number, part in enumerate(..., start=1)` send loop of
`ChunkedUploader.encrypt_and_upload`: send the listed part numbers in
order, stopping at the first `send_part` failure. -/
def uploadParts (b : Backend) : List Nat → List S3Call × Bool
  | [] => ([], true)
  | p :: rest =>
    let r := MultipartUpload.send_part b p
    if r.2 then
      let r2 := uploadParts b rest
      (r.1 ++ r2.1, r2.2)
    else
      (r.1, false)

/-- One run of the `async with MultipartUpload(...)` block of
`ChunkedUploader.encrypt_and_upload` with `numParts` parts to send:
`__aenter__` (init), the send loop, then — whether or not the body raised —
`__aexit__`.  The Boolean is `true` exactly when the run raises no error. -/
def encrypt_and_upload_run (b : Backend) (numParts : Nat) :
    List S3Call × Bool :=
  let body := uploadParts b (List.range' 1 numParts)
  let ex := MultipartUpload.aexit b
  (S3Call.initUpload :: (body.1 ++ ex.1), body.2 && ex.2)

/-- Number of times a given backend call appears in a trace. -/
def countCalls (c : S3Call) (trace : List S3Call) : Nat :=
  trace.count c

/-- Backend on which every external call succeeds. -/
def allOkBackend : Backend :=
  { partUrlOk := fun _ => true, putOk := fun _ => true, completeOk := true }

/-- Backend forcing `SESSION.put` to fail on part number `k`; `completeOk`
prescribes the outcome of a `complete_multipart_upload` attempt. -/
def failPutBackend (k : Nat) (completeOk : Bool) : Backend :=
  { partUrlOk := fun _ => true
    putOk := fun n => decide (n ≠ k)
    completeOk := completeOk }

/-- Invariant of the `process_file` chunk loop: `consumed` (the plaintext
fed so far) splits into the full segments already encrypted (`S`) plus the
unprocessed remainder; everything yielded so far plus the upload buffer is
exactly the ciphertext of `S`; the running size counter equals the bytes
yielded; and every yielded part is exactly `part_size` long. -/
def EncInv (enc : List Nat → List Nat) (part_size : Nat)
    (consumed : List Nat) (st : EncryptorState) : Prop :=
  ∃ S : List (List Nat),
    consumed = S.flatten ++ st.unprocessed_bytes ∧
    (∀ s ∈ S, s.length = SEGMENT_SIZE) ∧
    st.unprocessed_bytes.length < SEGMENT_SIZE ∧
    st.parts.flatten ++ st.upload_buffer = (S.map enc).flatten ∧
    st.encrypted_file_size = st.parts.flatten.length ∧
    (∀ p ∈ st.parts, p.length = part_size)

/-- Invariant of the `process_parts` chunk loop: the ciphertext fed so far
splits into the full cipher segments already decrypted (`T`) plus the
unprocessed remainder, and the bytes absorbed into the plaintext hash plus
the download buffer are exactly the decryption of `T`. -/
def DecInv (dec : List Nat → List Nat) (consumed : List Nat)
    (st : DecryptorState) : Prop :=
  ∃ T : List (List Nat),
    consumed = T.flatten ++ st.unprocessed_bytes ∧
    (∀ t ∈ T, t.length = CIPHER_SEGMENT_SIZE) ∧
    st.unprocessed_bytes.length < CIPHER_SEGMENT_SIZE ∧
    st.checksums.unencrypted_msg ++ st.download_buffer = (T.map dec).flatten


/-- Concrete stand-in for the opaque segment encryption, used only to
witness theorems whose hypotheses constrain `enc`/`dec`: 12 zero "nonce"
bytes ++ plaintext ++ 16 zero "tag" bytes (28 bytes of overhead). -/
def toyEnc (s : List Nat) : List Nat :=
  List.replicate 12 0 ++ (s ++ List.replicate 16 0)

/-- Left inverse of `toyEnc`: strip the 12 nonce bytes and the 16 tag
bytes. -/
def toyDec (c : List Nat) : List Nat :=
  (c.drop 12).take (c.length - 28)

/-- Concrete stand-in for an opaque digest function. -/
def toyHash (l : List Nat) : Nat := l.length

/-! ## Arithmetic and list helper lemmas -/

/-- `math.ceil(a / b)` in exact arithmetic. -/
theorem ceil_div_eq (a b : Nat) (hb : 0 < b) :
    (a + b - 1) / b = a / b + (if a % b = 0 then 0 else 1) := by
  have hdm : b * (a / b) + a % b = a := Nat.div_add_mod a b
  have hlt : a % b < b := Nat.mod_lt _ hb
  by_cases h : a % b = 0
  · have h1 : a + b - 1 = b * (a / b) + (b - 1) := by omega
    have hb1 : (b - 1) / b = 0 := Nat.div_eq_of_lt (by omega)
    rw [h1, Nat.mul_add_div hb, hb1, h]
    simp
  · have hb2 : b * (a / b + 1) = b * (a / b) + b := by ring
    have h1 : a + b - 1 = b * (a / b + 1) + (a % b - 1) := by omega
    have hm1 : (a % b - 1) / b = 0 := Nat.div_eq_of_lt (by omega)
    rw [h1, Nat.mul_add_div hb, hm1, if_neg h]

/-- The first component of `get_segments`, unfolded. -/
theorem get_segments_fst (p : List Nat) (ss : Nat) :
    (get_segments p ss).1 = (List.range (p.length / ss)).map
      (fun i => (p.drop (i * ss)).take ss) := rfl

/-- The second component of `get_segments`, unfolded. -/
theorem get_segments_snd_def (p : List Nat) (ss : Nat) :
    (get_segments p ss).2 =
      if (p.length + ss - 1) / ss ≠ p.length / ss then
        p.drop (p.length / ss * ss)
      else [] := rfl

/-- Flattening the first `n` slices of width `ss` gives the first `n * ss`
bytes. -/
theorem flatten_slices (p : List Nat) (ss : Nat) :
    ∀ n : Nat, (((List.range n).map
        (fun i => (p.drop (i * ss)).take ss)).flatten) = p.take (n * ss)
  | 0 => by simp
  | n + 1 => by
    rw [List.range_succ, List.map_append, List.flatten_append,
      flatten_slices p ss n]
    simp only [List.map_cons, List.map_nil, List.flatten_cons,
      List.flatten_nil, List.append_nil]
    rw [Nat.succ_mul, List.take_add]

/-- The flattened full segments are the aligned front of the input. -/
theorem get_segments_fst_flatten (p : List Nat) (ss : Nat) :
    (get_segments p ss).1.flatten = p.take (p.length / ss * ss) := by
  rw [get_segments_fst]
  exact flatten_slices p ss _

/-- The remainder returned by `get_segments` is the unaligned tail. -/
theorem get_segments_snd (p : List Nat) (ss : Nat) (hss : 0 < ss) :
    (get_segments p ss).2 = p.drop (p.length / ss * ss) := by
  rw [get_segments_snd_def, ceil_div_eq p.length ss hss]
  by_cases h : p.length % ss = 0
  · have hmul : p.length / ss * ss = p.length :=
      Nat.div_mul_cancel (Nat.dvd_of_mod_eq_zero h)
    simp [h, hmul]
  · simp [h]

/-- Splitter soundness: segments ++ remainder reassemble the input. -/
theorem get_segments_append_eq (p : List Nat) (ss : Nat) (hss : 0 < ss) :
    (get_segments p ss).1.flatten ++ (get_segments p ss).2 = p := by
  rw [get_segments_fst_flatten, get_segments_snd p ss hss,
    List.take_append_drop]

/-- Every full segment has exactly the requested width. -/
theorem get_segments_mem_length (p : List Nat) (ss : Nat) :
    ∀ s ∈ (get_segments p ss).1, s.length = ss := by
  intro s hs
  rw [get_segments_fst] at hs
  simp only [List.mem_map, List.mem_range] at hs
  obtain ⟨i, hi, rfl⟩ := hs
  rw [List.length_take, List.length_drop]
  have h1 : (i + 1) * ss ≤ p.length / ss * ss :=
    Nat.mul_le_mul_right ss hi
  have h2 : p.length / ss * ss ≤ p.length := Nat.div_mul_le_self _ _
  have h3 : (i + 1) * ss = i * ss + ss := by ring
  omega

/-- The remainder is strictly shorter than one segment. -/
theorem get_segments_snd_length (p : List Nat) (ss : Nat) (hss : 0 < ss) :
    (get_segments p ss).2.length < ss := by
  rw [get_segments_snd p ss hss, List.length_drop]
  have hdm : ss * (p.length / ss) + p.length % ss = p.length :=
    Nat.div_add_mod p.length ss
  have hcomm : p.length / ss * ss = ss * (p.length / ss) := Nat.mul_comm _ _
  have hmod : p.length % ss < ss := Nat.mod_lt _ hss
  omega

/-- Prepending one full segment shifts `get_segments` by one segment. -/
theorem get_segments_cons (ss : Nat) (hss : 0 < ss) (a rest : List Nat)
    (ha : a.length = ss) :
    get_segments (a ++ rest) ss =
      (a :: (get_segments rest ss).1, (get_segments rest ss).2) := by
  have hlen : (a ++ rest).length = rest.length + ss := by
    rw [List.length_append, ha]; omega
  have hfloor : (a ++ rest).length / ss = rest.length / ss + 1 := by
    rw [hlen, Nat.add_div_right _ hss]
  have hceil : ((a ++ rest).length + ss - 1) / ss
      = (rest.length + ss - 1) / ss + 1 := by
    have h2 : (a ++ rest).length + ss - 1 = (rest.length + ss - 1) + ss := by
      rw [hlen]; omega
    rw [h2, Nat.add_div_right _ hss]
  have hslice : ∀ i : Nat,
      (((a ++ rest).drop ((i + 1) * ss)).take ss)
        = ((rest.drop (i * ss)).take ss) := by
    intro i
    have h1 : (i + 1) * ss = ss + i * ss := by ring
    rw [h1, ← List.drop_drop, List.drop_left' ha]
  refine Prod.ext ?_ ?_
  · rw [get_segments_fst, get_segments_fst, hfloor, List.range_succ_eq_map,
      List.map_cons, List.map_map]
    congr 1
    · rw [Nat.zero_mul, List.drop_zero, List.take_left' ha]
    · refine List.map_congr_left ?_
      intro i _
      simpa [Function.comp, Nat.succ_eq_add_one] using hslice i
  · rw [get_segments_snd_def, get_segments_snd_def, hfloor, hceil]
    have hdrop : (a ++ rest).drop ((rest.length / ss + 1) * ss)
        = rest.drop (rest.length / ss * ss) := by
      have h1 : (rest.length / ss + 1) * ss = ss + rest.length / ss * ss := by
        ring
      rw [h1, ← List.drop_drop, List.drop_left' ha]
    by_cases hc : (rest.length + ss - 1) / ss = rest.length / ss
    · simp [hc]
    · simp [hc, hdrop]

/-- Greedy-decomposition uniqueness: applying `get_segments` to an already
segment-aligned stream recovers exactly its segments and tail. -/
theorem get_segments_aligned (ss : Nat) (hss : 0 < ss) :
    ∀ (A : List (List Nat)) (t : List Nat), (∀ a ∈ A, a.length = ss) →
      t.length < ss → get_segments (A.flatten ++ t) ss = (A, t)
  | [], t, _, ht => by
    rw [List.flatten_nil, List.nil_append]
    have hfloor : t.length / ss = 0 := Nat.div_eq_of_lt ht
    refine Prod.ext ?_ ?_
    · rw [get_segments_fst, hfloor]
      simp
    · rw [get_segments_snd_def, ceil_div_eq t.length ss hss, hfloor]
      by_cases h : t.length % ss = 0
      · have ht0 : t.length = 0 := by
          have := Nat.mod_eq_of_lt ht
          omega
        simp [h, List.eq_nil_of_length_eq_zero ht0]
      · simp [h]
  | a :: A, t, hA, ht => by
    have ha : a.length = ss := hA a (List.mem_cons_self a A)
    have hArest : ∀ x ∈ A, x.length = ss := fun x hx =>
      hA x (List.mem_cons_of_mem a hx)
    rw [List.flatten_cons, List.append_assoc, get_segments_cons ss hss a _ ha,
      get_segments_aligned ss hss A t hArest ht]

/-- `drain` soundness: the slices and the rest reassemble the buffer, every
slice is exactly `part_size` long, and the rest is shorter than one slice. -/
theorem drain_spec (part_size : Nat) (hps : 0 < part_size) (buffer : List Nat) :
    (drain part_size buffer).1.flatten ++ (drain part_size buffer).2 = buffer ∧
    (∀ p ∈ (drain part_size buffer).1, p.length = part_size) ∧
    (drain part_size buffer).2.length < part_size := by
  by_cases h : part_size ≤ buffer.length
  · rw [drain, dif_pos ⟨hps, h⟩]
    have ih := drain_spec part_size hps (buffer.drop part_size)
    refine ⟨?_, ?_, ih.2.2⟩
    · rw [List.flatten_cons, List.append_assoc, ih.1, List.take_append_drop]
    · intro p hp
      rcases List.mem_cons.mp hp with hp | hp
      · rw [hp, List.length_take]
        omega
      · exact ih.2.1 p hp
  · rw [drain, dif_neg (fun hc => h hc.2)]
    refine ⟨by simp, by simp, ?_⟩
    simp only []
    omega
termination_by buffer.length
decreasing_by
  simp only [List.length_drop]
  omega

/-- Length of a flattened list whose members all have length `ss`. -/
theorem flatten_length_const (ss : Nat) :
    ∀ L : List (List Nat), (∀ s ∈ L, s.length = ss) →
      L.flatten.length = L.length * ss
  | [], _ => by simp
  | s :: L, h => by
    rw [List.flatten_cons, List.length_append, h s (List.mem_cons_self s L),
      flatten_length_const ss L (fun x hx => h x (List.mem_cons_of_mem s hx))]
    simp only [List.length_cons]
    ring

/-- Length of the ciphertext of a segment list under the 28-byte-overhead
law. -/
theorem flatten_map_enc_length (enc : List Nat → List Nat)
    (hlen : ∀ s, (enc s).length = s.length + 28) :
    ∀ L : List (List Nat),
      ((L.map enc).flatten).length = L.flatten.length + 28 * L.length
  | [] => by simp
  | s :: L => by
    rw [List.map_cons, List.flatten_cons, List.flatten_cons,
      List.length_append, List.length_append, hlen s,
      flatten_map_enc_length enc hlen L]
    simp only [List.length_cons]
    ring

/-- Folding `update_unencrypted` over a list of parts absorbs their
concatenation. -/
theorem foldl_update_unencrypted_msg :
    ∀ (D : List (List Nat)) (c : Checksums),
      (D.foldl Checksums.update_unencrypted c).unencrypted_msg
        = c.unencrypted_msg ++ D.flatten
  | [], c => by simp
  | d :: D, c => by
    rw [List.foldl_cons, foldl_update_unencrypted_msg D, List.flatten_cons]
    simp [Checksums.update_unencrypted]

/-! ## Encryptor stream invariant -/

theorem EncInv_start (enc : List Nat → List Nat) (part_size : Nat) :
    EncInv enc part_size [] Encryptor.start := by
  refine ⟨[], ?_, ?_, ?_, ?_, ?_, ?_⟩ <;> simp [Encryptor.start, SEGMENT_SIZE]

theorem EncInv_step (enc : List Nat → List Nat) (md5H shaH : List Nat → Nat)
    (part_size : Nat) (consumed : List Nat) (st : EncryptorState)
    (c : List Nat) (h : EncInv enc part_size consumed st) :
    EncInv enc part_size (consumed ++ c)
      (Encryptor.process_chunk enc md5H shaH part_size st c) := by
  obtain ⟨S, h1, h2, h3, h4, h5, h6⟩ := h
  have hss : (0 : Nat) < SEGMENT_SIZE := by decide
  have hT := get_segments_append_eq (st.unprocessed_bytes ++ c) SEGMENT_SIZE hss
  have hTlen := get_segments_mem_length (st.unprocessed_bytes ++ c) SEGMENT_SIZE
  have hTrem := get_segments_snd_length (st.unprocessed_bytes ++ c) SEGMENT_SIZE hss
  set T := (get_segments (st.unprocessed_bytes ++ c) SEGMENT_SIZE).1 with hTdef
  set u' := (get_segments (st.unprocessed_bytes ++ c) SEGMENT_SIZE).2 with hu'def
  have hcons : consumed ++ c = (S ++ T).flatten ++ u' := by
    rw [h1, List.append_assoc, ← hT, List.flatten_append, List.append_assoc]
  have hout : st.parts.flatten ++ (st.upload_buffer ++ (T.map enc).flatten)
      = ((S ++ T).map enc).flatten := by
    rw [List.map_append, List.flatten_append, ← List.append_assoc, h4]
  have hmem : ∀ s ∈ S ++ T, s.length = SEGMENT_SIZE := by
    intro s hs
    rcases List.mem_append.mp hs with hs | hs
    · exact h2 s hs
    · exact hTlen s hs
  rw [Encryptor.process_chunk]
  simp only [Encryptor.encryptBuffer, ← hTdef, ← hu'def]
  split
  case isTrue hif =>
    simp only [List.length_append] at hif
    refine ⟨S ++ T, hcons, hmem, hTrem, ?_, ?_, ?_⟩
    · simp only [List.flatten_append, List.flatten_cons, List.flatten_nil,
        List.append_nil]
      rw [List.append_assoc, List.take_append_drop]
      exact hout
    · simp only [List.flatten_append, List.flatten_cons, List.flatten_nil,
        List.append_nil, List.length_append, List.length_take]
      omega
    · intro p hp
      rcases List.mem_append.mp hp with hp | hp
      · exact h6 p hp
      · rw [List.mem_singleton.mp hp, List.length_take, List.length_append]
        omega
  case isFalse hif =>
    exact ⟨S ++ T, hcons, hmem, hTrem, hout, h5, h6⟩

theorem EncInv_foldl (enc : List Nat → List Nat) (md5H shaH : List Nat → Nat)
    (part_size : Nat) :
    ∀ (chunks : List (List Nat)) (consumed : List Nat) (st : EncryptorState),
      EncInv enc part_size consumed st →
      EncInv enc part_size (consumed ++ chunks.flatten)
        (chunks.foldl (Encryptor.process_chunk enc md5H shaH part_size) st)
  | [], consumed, st, h => by simpa using h
  | c :: rest, consumed, st, h => by
    have h1 := EncInv_step enc md5H shaH part_size consumed st c h
    have h2 := EncInv_foldl enc md5H shaH part_size rest (consumed ++ c) _ h1
    rw [List.foldl_cons]
    rw [List.flatten_cons, ← List.append_assoc]
    exact h2

/-- `fullCipher` through the greedy segmentation of the whole input. -/
theorem fullCipher_eq (enc : List Nat → List Nat) (data : List Nat)
    (S : List (List Nat)) (u : List Nat)
    (hdata : data = S.flatten ++ u) (hS : ∀ s ∈ S, s.length = SEGMENT_SIZE)
    (hu : u.length < SEGMENT_SIZE) :
    fullCipher enc data
      = (S.map enc).flatten ++ (if u = [] then [] else enc u) := by
  have hss : (0 : Nat) < SEGMENT_SIZE := by decide
  rw [fullCipher, Encryptor.encryptBuffer]
  simp only [hdata, get_segments_aligned SEGMENT_SIZE hss S u hS hu]

/-- After `Encryptor.finish`, the concatenation of all yielded parts is the
full ciphertext of everything consumed, the size counter equals the total
yielded length, and the parts have the claimed shape. -/
theorem Encryptor.finish_spec (enc : List Nat → List Nat)
    (md5H shaH : List Nat → Nat) (part_size : Nat) (hps : 0 < part_size)
    (consumed : List Nat) (st : EncryptorState)
    (h : EncInv enc part_size consumed st) :
    (Encryptor.finish enc md5H shaH part_size st).parts.flatten
        = fullCipher enc consumed ∧
    (Encryptor.finish enc md5H shaH part_size st).encrypted_file_size
        = (Encryptor.finish enc md5H shaH part_size st).parts.flatten.length ∧
    (∀ p ∈ (Encryptor.finish enc md5H shaH part_size st).parts.dropLast,
        p.length = part_size) ∧
    (∀ p ∈ (Encryptor.finish enc md5H shaH part_size st).parts,
        p.length ≤ part_size ∧ p ≠ []) := by
  obtain ⟨S, h1, h2, h3, h4, h5, h6⟩ := h
  have hfc := fullCipher_eq enc consumed S st.unprocessed_bytes h1 h2 h3
  rw [Encryptor.finish]
  set buffer1 :=
    if st.unprocessed_bytes ≠ [] then
      st.upload_buffer ++ enc st.unprocessed_bytes
    else st.upload_buffer with hbuf1
  have htotal : st.parts.flatten ++ buffer1 = fullCipher enc consumed := by
    rw [hfc, hbuf1]
    by_cases hu : st.unprocessed_bytes = []
    · simp [hu, h4]
    · rw [if_pos hu, if_neg hu, ← List.append_assoc, h4]
  have hd := drain_spec part_size hps buffer1
  set D := (drain part_size buffer1).1 with hDdef
  set rest := (drain part_size buffer1).2 with hrest
  obtain ⟨hd1, hd2, hd3⟩ := hd
  have hDflat : D.flatten.length = D.length * part_size :=
    flatten_length_const part_size D hd2
  have hcomm : part_size * D.length = D.length * part_size := Nat.mul_comm _ _
  by_cases hr : rest ≠ []
  · rw [if_pos hr]
    refine ⟨?_, ?_, ?_, ?_⟩
    · simp only [List.flatten_append, List.flatten_cons, List.flatten_nil,
        List.append_nil]
      rw [List.append_assoc, hd1]
      exact htotal
    · simp only [List.flatten_append, List.flatten_cons, List.flatten_nil,
        List.append_nil, List.length_append]
      omega
    · intro p hp
      rw [List.dropLast_concat] at hp
      rcases List.mem_append.mp hp with hp | hp
      · exact h6 p hp
      · exact hd2 p hp
    · intro p hp
      rcases List.mem_append.mp hp with hp | hp
      · rcases List.mem_append.mp hp with hp | hp
        · have := h6 p hp
          constructor
          · omega
          · intro hnil
            rw [hnil] at this
            simp at this
            omega
        · have := hd2 p hp
          constructor
          · omega
          · intro hnil
            rw [hnil] at this
            simp at this
            omega
      · rw [List.mem_singleton.mp hp]
        exact ⟨by omega, hr⟩
  · push_neg at hr
    rw [if_neg (by simp [hr] : ¬ rest ≠ [])]
    refine ⟨?_, ?_, ?_, ?_⟩
    · rw [List.flatten_append, ← htotal]
      congr 1
      rw [← hd1, hr, List.append_nil]
    · simp only [List.flatten_append, List.length_append]
      omega
    · intro p hp
      have hp' : p ∈ st.parts ++ D := List.dropLast_sublist _ |>.subset hp
      rcases List.mem_append.mp hp' with hp' | hp'
      · exact h6 p hp'
      · exact hd2 p hp'
    · intro p hp
      rcases List.mem_append.mp hp with hp | hp
      · have := h6 p hp
        refine ⟨by omega, ?_⟩
        intro hnil
        rw [hnil] at this
        simp at this
        omega
      · have := hd2 p hp
        refine ⟨by omega, ?_⟩
        intro hnil
        rw [hnil] at this
        simp at this
        omega

/-- Main encryptor characterization: the yielded parts concatenate to the
one-shot ciphertext of the whole plaintext, the size counter matches, and
all parts are full-size except possibly a shorter (never empty) last one. -/
theorem Encryptor.process_file_spec (enc : List Nat → List Nat)
    (md5H shaH : List Nat → Nat) (part_size : Nat) (hps : 0 < part_size)
    (chunks : List (List Nat)) :
    (Encryptor.process_file enc md5H shaH part_size chunks).parts.flatten
        = fullCipher enc chunks.flatten ∧
    (Encryptor.process_file enc md5H shaH part_size chunks).encrypted_file_size
        = (Encryptor.process_file enc md5H shaH part_size
            chunks).parts.flatten.length ∧
    (∀ p ∈ (Encryptor.process_file enc md5H shaH part_size
        chunks).parts.dropLast, p.length = part_size) ∧
    (∀ p ∈ (Encryptor.process_file enc md5H shaH part_size chunks).parts,
        p.length ≤ part_size ∧ p ≠ []) := by
  have h0 := EncInv_start enc part_size
  have h1 := EncInv_foldl enc md5H shaH part_size chunks [] Encryptor.start h0
  rw [List.nil_append] at h1
  exact Encryptor.finish_spec enc md5H shaH part_size hps chunks.flatten _ h1

/-- Exact ciphertext growth: `L + 28 * ceil(L / SEGMENT_SIZE)` bytes. -/
theorem fullCipher_length (enc : List Nat → List Nat)
    (hlen : ∀ s, (enc s).length = s.length + 28) (data : List Nat) :
    (fullCipher enc data).length
      = data.length + 28 * ((data.length + SEGMENT_SIZE - 1) / SEGMENT_SIZE) := by
  have hss : (0 : Nat) < SEGMENT_SIZE := by decide
  rw [fullCipher, Encryptor.encryptBuffer]
  have happ := get_segments_append_eq data SEGMENT_SIZE hss
  have hmem := get_segments_mem_length data SEGMENT_SIZE
  have hrem := get_segments_snd_length data SEGMENT_SIZE hss
  set S := (get_segments data SEGMENT_SIZE).1 with hS
  set u := (get_segments data SEGMENT_SIZE).2 with hu'
  have hflatS : S.flatten.length = S.length * SEGMENT_SIZE :=
    flatten_length_const _ S hmem
  have hmapS : ((S.map enc).flatten).length = S.flatten.length + 28 * S.length :=
    flatten_map_enc_length enc hlen S
  have hdata : data.length = S.length * SEGMENT_SIZE + u.length := by
    rw [← happ, List.length_append, hflatS]
  by_cases hu : u = []
  · have hu0 : u.length = 0 := by rw [hu]; rfl
    rw [if_pos hu, List.append_nil, hmapS, hflatS]
    simp only [SEGMENT_SIZE] at hdata ⊢
    omega
  · have hu1 : 0 < u.length := List.length_pos.mpr hu
    rw [if_neg hu, List.length_append, hmapS, hflatS, hlen u]
    simp only [SEGMENT_SIZE] at hdata hrem ⊢
    omega

/-! ## Decryptor stream invariant -/

theorem DecInv_start (dec : List Nat → List Nat) :
    DecInv dec [] Decryptor.start := by
  refine ⟨[], ?_, ?_, ?_, ?_⟩ <;>
    simp [Decryptor.start, Checksums.start, CIPHER_SEGMENT_SIZE, SEGMENT_SIZE]

theorem DecInv_step (dec : List Nat → List Nat) (md5H shaH : List Nat → Nat)
    (part_size : Nat) (consumed : List Nat) (st : DecryptorState)
    (c : List Nat) (h : DecInv dec consumed st) :
    DecInv dec (consumed ++ c)
      (Decryptor.process_chunk dec md5H shaH part_size st c) := by
  obtain ⟨T, h1, h2, h3, h4⟩ := h
  have hcss : (0 : Nat) < CIPHER_SEGMENT_SIZE := by decide
  have hU := get_segments_append_eq (st.unprocessed_bytes ++ c)
    CIPHER_SEGMENT_SIZE hcss
  have hUlen := get_segments_mem_length (st.unprocessed_bytes ++ c)
    CIPHER_SEGMENT_SIZE
  have hUrem := get_segments_snd_length (st.unprocessed_bytes ++ c)
    CIPHER_SEGMENT_SIZE hcss
  set U := (get_segments (st.unprocessed_bytes ++ c) CIPHER_SEGMENT_SIZE).1
    with hUdef
  set u' := (get_segments (st.unprocessed_bytes ++ c) CIPHER_SEGMENT_SIZE).2
    with hu'def
  have hcons : consumed ++ c = (T ++ U).flatten ++ u' := by
    rw [h1, List.append_assoc, ← hU, List.flatten_append, List.append_assoc]
  have hmem : ∀ s ∈ T ++ U, s.length = CIPHER_SEGMENT_SIZE := by
    intro s hs
    rcases List.mem_append.mp hs with hs | hs
    · exact h2 s hs
    · exact hUlen s hs
  have hout : st.checksums.unencrypted_msg
      ++ (st.download_buffer ++ (U.map dec).flatten)
      = ((T ++ U).map dec).flatten := by
    rw [List.map_append, List.flatten_append, ← List.append_assoc, h4]
  rw [Decryptor.process_chunk]
  simp only [Decryptor.decryptBuffer, ← hUdef, ← hu'def]
  split
  case isTrue hif =>
    refine ⟨T ++ U, hcons, hmem, hUrem, ?_⟩
    simp only [Checksums.update_unencrypted, Checksums.update_encrypted]
    rw [List.append_assoc, List.take_append_drop]
    exact hout
  case isFalse hif =>
    exact ⟨T ++ U, hcons, hmem, hUrem, hout⟩

theorem DecInv_step_whileDrain (dec : List Nat → List Nat)
    (md5H shaH : List Nat → Nat) (part_size : Nat) (hps : 0 < part_size)
    (consumed : List Nat) (st : DecryptorState) (c : List Nat)
    (h : DecInv dec consumed st) :
    DecInv dec (consumed ++ c)
      (Decryptor.process_chunk_whileDrain dec md5H shaH part_size st c) := by
  obtain ⟨T, h1, h2, h3, h4⟩ := h
  have hcss : (0 : Nat) < CIPHER_SEGMENT_SIZE := by decide
  have hU := get_segments_append_eq (st.unprocessed_bytes ++ c)
    CIPHER_SEGMENT_SIZE hcss
  have hUlen := get_segments_mem_length (st.unprocessed_bytes ++ c)
    CIPHER_SEGMENT_SIZE
  have hUrem := get_segments_snd_length (st.unprocessed_bytes ++ c)
    CIPHER_SEGMENT_SIZE hcss
  set U := (get_segments (st.unprocessed_bytes ++ c) CIPHER_SEGMENT_SIZE).1
    with hUdef
  set u' := (get_segments (st.unprocessed_bytes ++ c) CIPHER_SEGMENT_SIZE).2
    with hu'def
  have hcons : consumed ++ c = (T ++ U).flatten ++ u' := by
    rw [h1, List.append_assoc, ← hU, List.flatten_append, List.append_assoc]
  have hmem : ∀ s ∈ T ++ U, s.length = CIPHER_SEGMENT_SIZE := by
    intro s hs
    rcases List.mem_append.mp hs with hs | hs
    · exact h2 s hs
    · exact hUlen s hs
  have hout : st.checksums.unencrypted_msg
      ++ (st.download_buffer ++ (U.map dec).flatten)
      = ((T ++ U).map dec).flatten := by
    rw [List.map_append, List.flatten_append, ← List.append_assoc, h4]
  rw [Decryptor.process_chunk_whileDrain]
  simp only [Decryptor.decryptBuffer, ← hUdef, ← hu'def]
  have hdr := drain_spec part_size hps
    (st.download_buffer ++ (U.map dec).flatten)
  refine ⟨T ++ U, hcons, hmem, hUrem, ?_⟩
  rw [foldl_update_unencrypted_msg]
  simp only [Checksums.update_encrypted]
  rw [List.append_assoc, hdr.1]
  exact hout

theorem DecInv_foldl (dec : List Nat → List Nat) (md5H shaH : List Nat → Nat)
    (part_size : Nat) :
    ∀ (chunks : List (List Nat)) (consumed : List Nat) (st : DecryptorState),
      DecInv dec consumed st →
      DecInv dec (consumed ++ chunks.flatten)
        (chunks.foldl (Decryptor.process_chunk dec md5H shaH part_size) st)
  | [], consumed, st, h => by simpa using h
  | c :: rest, consumed, st, h => by
    have h1 := DecInv_step dec md5H shaH part_size consumed st c h
    have h2 := DecInv_foldl dec md5H shaH part_size rest (consumed ++ c) _ h1
    rw [List.foldl_cons, List.flatten_cons, ← List.append_assoc]
    exact h2

theorem DecInv_foldl_whileDrain (dec : List Nat → List Nat)
    (md5H shaH : List Nat → Nat) (part_size : Nat) (hps : 0 < part_size) :
    ∀ (chunks : List (List Nat)) (consumed : List Nat) (st : DecryptorState),
      DecInv dec consumed st →
      DecInv dec (consumed ++ chunks.flatten)
        (chunks.foldl
          (Decryptor.process_chunk_whileDrain dec md5H shaH part_size) st)
  | [], consumed, st, h => by simpa using h
  | c :: rest, consumed, st, h => by
    have h1 := DecInv_step_whileDrain dec md5H shaH part_size hps consumed st c h
    have h2 := DecInv_foldl_whileDrain dec md5H shaH part_size hps rest
      (consumed ++ c) _ h1
    rw [List.foldl_cons, List.flatten_cons, ← List.append_assoc]
    exact h2

/-- `fullPlain` through the greedy cipher segmentation of the whole
stream. -/
theorem fullPlain_eq (dec : List Nat → List Nat) (ct : List Nat)
    (T : List (List Nat)) (u : List Nat)
    (hct : ct = T.flatten ++ u) (hT : ∀ t ∈ T, t.length = CIPHER_SEGMENT_SIZE)
    (hu : u.length < CIPHER_SEGMENT_SIZE) :
    fullPlain dec ct
      = (T.map dec).flatten ++ (if u = [] then [] else dec u) := by
  have hcss : (0 : Nat) < CIPHER_SEGMENT_SIZE := by decide
  rw [fullPlain, Decryptor.decryptBuffer]
  simp only [hct, get_segments_aligned CIPHER_SEGMENT_SIZE hcss T u hT hu]

/-- After `Decryptor.finish`, the plaintext hash has absorbed exactly the
one-shot decryption of everything consumed. -/
theorem Decryptor.finish_msg (dec : List Nat → List Nat) (part_size : Nat)
    (hps : 0 < part_size) (consumed : List Nat) (st : DecryptorState)
    (h : DecInv dec consumed st) :
    (Decryptor.finish dec part_size st).checksums.unencrypted_msg
      = fullPlain dec consumed := by
  obtain ⟨T, h1, h2, h3, h4⟩ := h
  have hfp := fullPlain_eq dec consumed T st.unprocessed_bytes h1 h2 h3
  rw [Decryptor.finish]
  set buffer1 :=
    if st.unprocessed_bytes ≠ [] then
      st.download_buffer ++ dec st.unprocessed_bytes
    else st.download_buffer with hbuf1
  have htotal : st.checksums.unencrypted_msg ++ buffer1
      = fullPlain dec consumed := by
    rw [hfp, hbuf1]
    by_cases hu : st.unprocessed_bytes = []
    · simp [hu, h4]
    · rw [if_pos hu, if_neg hu, ← List.append_assoc, h4]
  have hd := drain_spec part_size hps buffer1
  set D := (drain part_size buffer1).1 with hDdef
  set rest := (drain part_size buffer1).2 with hrest
  obtain ⟨hd1, _, _⟩ := hd
  by_cases hr : rest ≠ []
  · rw [if_pos hr]
    simp only [Checksums.update_unencrypted]
    rw [foldl_update_unencrypted_msg, List.append_assoc, hd1]
    exact htotal
  · push_neg at hr
    rw [if_neg (by simp [hr] : ¬ rest ≠ [])]
    rw [foldl_update_unencrypted_msg]
    rw [← htotal, ← hd1, hr, List.append_nil]

/-- The plaintext hash after `Decryptor.process_parts` absorbs exactly the
one-shot decryption of the concatenated download chunks — for any chunking
of the ciphertext stream. -/
theorem Decryptor.process_parts_msg (dec : List Nat → List Nat)
    (md5H shaH : List Nat → Nat) (part_size : Nat) (hps : 0 < part_size)
    (chunks : List (List Nat)) :
    (Decryptor.process_parts dec md5H shaH part_size
        chunks).checksums.unencrypted_msg = fullPlain dec chunks.flatten := by
  have h0 := DecInv_start dec
  have h1 := DecInv_foldl dec md5H shaH part_size chunks [] Decryptor.start h0
  rw [List.nil_append] at h1
  exact Decryptor.finish_msg dec part_size hps chunks.flatten _ h1

/-- Same as `Decryptor.process_parts_msg` for the `while`-drain variant. -/
theorem Decryptor.process_parts_whileDrain_msg (dec : List Nat → List Nat)
    (md5H shaH : List Nat → Nat) (part_size : Nat) (hps : 0 < part_size)
    (chunks : List (List Nat)) :
    (Decryptor.process_parts_whileDrain dec md5H shaH part_size
        chunks).checksums.unencrypted_msg = fullPlain dec chunks.flatten := by
  have h0 := DecInv_start dec
  have h1 := DecInv_foldl_whileDrain dec md5H shaH part_size hps chunks []
    Decryptor.start h0
  rw [List.nil_append] at h1
  exact Decryptor.finish_msg dec part_size hps chunks.flatten _ h1

/-- Round trip of the one-shot stream functions: decrypting the full
ciphertext recovers the plaintext. -/
theorem fullPlain_fullCipher (enc dec : List Nat → List Nat)
    (hlen : ∀ s, (enc s).length = s.length + 28)
    (hinv : ∀ s, dec (enc s) = s) (data : List Nat) :
    fullPlain dec (fullCipher enc data) = data := by
  have hss : (0 : Nat) < SEGMENT_SIZE := by decide
  have happ := get_segments_append_eq data SEGMENT_SIZE hss
  have hmem := get_segments_mem_length data SEGMENT_SIZE
  have hrem := get_segments_snd_length data SEGMENT_SIZE hss
  set S := (get_segments data SEGMENT_SIZE).1 with hS
  set u := (get_segments data SEGMENT_SIZE).2 with hu'
  have hfc := fullCipher_eq enc data S u happ.symm hmem hrem
  have hmemenc : ∀ t ∈ S.map enc, t.length = CIPHER_SEGMENT_SIZE := by
    intro t ht
    obtain ⟨s, hs, rfl⟩ := List.mem_map.mp ht
    rw [hlen s, hmem s hs, CIPHER_SEGMENT_SIZE]
  have hdecS : (S.map enc).map dec = S := by
    rw [List.map_map]
    have : ∀ s ∈ S, (dec ∘ enc) s = id s := by
      intro s _
      simp [Function.comp, hinv s]
    rw [List.map_congr_left this, List.map_id]
  by_cases hu : u = []
  · rw [hfc, if_pos hu, List.append_nil]
    have hfp := fullPlain_eq dec ((S.map enc).flatten) (S.map enc) []
      (by simp) hmemenc (by rw [CIPHER_SEGMENT_SIZE]; decide)
    rw [hfp, hdecS,
      show (if ([] : List Nat) = [] then ([] : List Nat) else dec []) = []
        from rfl,
      List.append_nil, ← happ, hu, List.append_nil]
  · have hence : enc u ≠ [] := by
      intro hnil
      have := hlen u
      rw [hnil] at this
      simp at this
    have hlenu : (enc u).length < CIPHER_SEGMENT_SIZE := by
      rw [hlen u, CIPHER_SEGMENT_SIZE]
      omega
    rw [hfc, if_neg hu]
    have hfp := fullPlain_eq dec ((S.map enc).flatten ++ enc u) (S.map enc)
      (enc u) rfl hmemenc hlenu
    rw [hfp, if_neg hence, hdecS, hinv u]
    exact happ

/-! ## Range planner -/

/-- Closed form of `get_ranges`: one window per `ceil(file_size/part_size)`,
each `[ps*p, min (ps*(p+1)) fs - 1]`. -/
theorem get_ranges_closed_form (fs ps : Nat) (hps : 0 < ps) :
    get_ranges fs ps = (List.range ((fs + ps - 1) / ps)).map
      (fun p => (ps * p, min (ps * (p + 1)) fs - 1)) := by
  have hdm : ps * (fs / ps) + fs % ps = fs := Nat.div_add_mod fs ps
  have hmod : fs % ps < ps := Nat.mod_lt _ hps
  have hceil := ceil_div_eq fs ps hps
  rw [get_ranges]
  by_cases h : fs % ps = 0
  · have hc : (fs + ps - 1) / ps = fs / ps := by rw [hceil]; simp [h]
    rw [hc, if_neg (by omega : ¬ fs / ps ≠ fs / ps)]
    refine List.map_congr_left ?_
    intro p hp
    rw [List.mem_range] at hp
    have h3 : ps * (p + 1) ≤ ps * (fs / ps) := Nat.mul_le_mul_left ps hp
    have h1 : ps * (p + 1) ≤ fs := by omega
    rw [Nat.min_eq_left h1]
  · have hc : (fs + ps - 1) / ps = fs / ps + 1 := by rw [hceil]; simp [h]
    rw [hc, if_pos (by omega : fs / ps + 1 ≠ fs / ps), List.range_succ,
      List.map_append]
    congr 1
    · refine List.map_congr_left ?_
      intro p hp
      rw [List.mem_range] at hp
      have h3 : ps * (p + 1) ≤ ps * (fs / ps) := Nat.mul_le_mul_left ps hp
      have h1 : ps * (p + 1) ≤ fs := by omega
      rw [Nat.min_eq_left h1]
    · have hr : ps * (fs / ps + 1) = ps * (fs / ps) + ps := by ring
      have h1 : fs < ps * (fs / ps + 1) := by omega
      simp only [List.map_cons, List.map_nil]
      rw [Nat.min_eq_right (Nat.le_of_lt h1)]

/-! ## Multipart-upload trace facts -/

theorem countCalls_append (c : S3Call) (t1 t2 : List S3Call) :
    countCalls c (t1 ++ t2) = countCalls c t1 + countCalls c t2 :=
  List.count_append c t1 t2

/-- `send_part` against a fully healthy backend issues neither abort nor
complete. -/
theorem uploadParts_allOk (b : Backend) (hurl : ∀ n, b.partUrlOk n = true)
    (hput : ∀ n, b.putOk n = true) :
    ∀ ps : List Nat, (uploadParts b ps).2 = true ∧
      countCalls S3Call.abortUpload (uploadParts b ps).1 = 0 ∧
      countCalls S3Call.completeUpload (uploadParts b ps).1 = 0
  | [] => by simp [uploadParts, countCalls]
  | p :: rest => by
    have ih := uploadParts_allOk b hurl hput rest
    have hsend : MultipartUpload.send_part b p
        = ([S3Call.partUrl p, S3Call.putPart p], true) := by
      simp [MultipartUpload.send_part, hurl p, hput p]
    simp only [uploadParts, hsend, if_true]
    refine ⟨ih.1, ?_, ?_⟩
    · rw [countCalls_append, ih.2.1]
      rfl
    · rw [countCalls_append, ih.2.2]
      rfl

/-- A failing `SESSION.put` on part `k` stops the send loop with exactly one
abort and no complete. -/
theorem uploadParts_failPut (k : Nat) (co : Bool) :
    ∀ ps : List Nat, k ∈ ps →
      (uploadParts (failPutBackend k co) ps).2 = false ∧
      countCalls S3Call.abortUpload
        (uploadParts (failPutBackend k co) ps).1 = 1 ∧
      countCalls S3Call.completeUpload
        (uploadParts (failPutBackend k co) ps).1 = 0
  | [], hk => absurd hk (List.not_mem_nil k)
  | p :: rest, hk => by
    by_cases hp : p = k
    · subst hp
      have hsend : MultipartUpload.send_part (failPutBackend p co) p
          = ([S3Call.partUrl p, S3Call.putPart p, S3Call.abortUpload],
             false) := by
        simp [MultipartUpload.send_part, failPutBackend]
      simp only [uploadParts, hsend]
      exact ⟨rfl, rfl, rfl⟩
    · have hk' : k ∈ rest := by
        rcases List.mem_cons.mp hk with h | h
        · exact absurd h.symm hp
        · exact h
      have ih := uploadParts_failPut k co rest hk'
      have hsend : MultipartUpload.send_part (failPutBackend k co) p
          = ([S3Call.partUrl p, S3Call.putPart p], true) := by
        simp [MultipartUpload.send_part, failPutBackend, hp]
      simp only [uploadParts, hsend, if_true]
      refine ⟨ih.1, ?_, ?_⟩
      · rw [countCalls_append, ih.2.1]
        rfl
      · rw [countCalls_append, ih.2.2]
        rfl

/-! ## Part-size adapter facts -/

theorem clamp_part_size_bounds (m : Nat) :
    lower_bound ≤ clamp_part_size m ∧ clamp_part_size m ≤ upper_bound := by
  rw [clamp_part_size]
  have hlu : lower_bound ≤ upper_bound := by
    rw [lower_bound, upper_bound]; norm_num
  split_ifs with h1 h2
  · exact ⟨Nat.le_refl _, hlu⟩
  · exact ⟨hlu, Nat.le_refl _⟩
  · omega

theorem candidate_sizes_bounds :
    ∀ c ∈ candidate_sizes, 8 * 1024 ^ 2 ≤ c ∧ c ≤ 4096 * 1024 ^ 2 := by
  decide

/-- Any part size accepted by `check_adjust_part_size` is within the S3
bounds and keeps the naive part count at or below 9995. -/
theorem check_adjust_part_size_some (m fs ps : Nat)
    (h : check_adjust_part_size m fs = some ps) :
    lower_bound ≤ ps ∧ ps ≤ upper_bound ∧ fs ≤ 9995 * ps := by
  rw [check_adjust_part_size] at h
  have hcl := clamp_part_size_bounds m
  by_cases hc : 9995 * clamp_part_size m < fs
  · rw [if_pos hc] at h
    cases hfind : candidate_sizes.find? (fun candidate_size =>
        decide (clamp_part_size m < candidate_size) &&
        decide (fs ≤ 9995 * candidate_size)) with
    | none =>
      rw [hfind] at h
      exact absurd h (by simp)
    | some c =>
      rw [hfind] at h
      have hcc := List.find?_some hfind
      have hmem := List.mem_of_find?_eq_some hfind
      simp only [Bool.and_eq_true, decide_eq_true_eq] at hcc
      have hps : c = ps := by
        injection h
      subst hps
      have hb := candidate_sizes_bounds c hmem
      have e1 : lower_bound ≤ 8 * 1024 ^ 2 := by
        rw [lower_bound]; norm_num
      have e2 : (4096 * 1024 ^ 2 : Nat) ≤ upper_bound := by
        rw [upper_bound]; norm_num
      exact ⟨by omega, by omega, hcc.2⟩
  · rw [if_neg hc] at h
    have hps : clamp_part_size m = ps := by
      injection h
    subst hps
    exact ⟨hcl.1, hcl.2, by omega⟩

/-- A file of `9995 × 5 GiB + 1` bytes defeats every candidate part size:
`check_adjust_part_size` raises for every configured part size. -/
theorem check_adjust_part_size_too_large (m : Nat) :
    check_adjust_part_size m (9995 * (5 * 1024 ^ 3) + 1) = none := by
  rw [check_adjust_part_size]
  have hcl := clamp_part_size_bounds m
  have h1 : 9995 * clamp_part_size m ≤ 9995 * (5 * 1024 ^ 3) := by
    have := Nat.mul_le_mul_left 9995 hcl.2
    rw [upper_bound] at this
    exact this
  rw [if_pos (by omega)]
  have hfind : candidate_sizes.find? (fun candidate_size =>
      decide (clamp_part_size m < candidate_size) &&
      decide (9995 * (5 * 1024 ^ 3) + 1 ≤ 9995 * candidate_size)) = none := by
    rw [List.find?_eq_none]
    intro c hmem
    have hb := candidate_sizes_bounds c hmem
    simp only [Bool.and_eq_true, decide_eq_true_eq, not_and]
    intro _
    have h2 : 9995 * c ≤ 9995 * (4096 * 1024 ^ 2) :=
      Nat.mul_le_mul_left 9995 hb.2
    have e3 : (9995 * (4096 * 1024 ^ 2) : Nat) < 9995 * (5 * 1024 ^ 3) + 1 := by
      norm_num
    omega
  rw [hfind]

/-! ## Witness-instance facts and remaining trace helpers -/

theorem toyEnc_length : ∀ s : List Nat, (toyEnc s).length = s.length + 28 := by
  intro s
  simp [toyEnc]

theorem toyDec_toyEnc : ∀ s : List Nat, toyDec (toyEnc s) = s := by
  intro s
  rw [toyDec, toyEnc]
  rw [List.drop_left' (by simp : (List.replicate 12 (0 : Nat)).length = 12)]
  have hlen : (List.replicate 12 (0 : Nat)
      ++ (s ++ List.replicate 16 0)).length - 28 = s.length := by
    simp
  rw [hlen, List.take_left' rfl]

theorem countCalls_cons (c d : S3Call) (t : List S3Call) :
    countCalls c (d :: t) = countCalls c t + (if d == c then 1 else 0) :=
  List.count_cons c d t

/-- `__aexit__` always issues exactly one complete attempt, and one abort
exactly when that attempt fails. -/
theorem aexit_counts (b : Backend) :
    countCalls S3Call.completeUpload (MultipartUpload.aexit b).1 = 1 ∧
    countCalls S3Call.abortUpload (MultipartUpload.aexit b).1
      = (if b.completeOk then 0 else 1) ∧
    (MultipartUpload.aexit b).2 = b.completeOk := by
  cases hco : b.completeOk
  · rw [MultipartUpload.aexit, if_neg (by simp [hco])]
    exact ⟨by decide, by decide, rfl⟩
  · rw [MultipartUpload.aexit, if_pos (by simp [hco])]
    exact ⟨by decide, by decide, rfl⟩

/-- Call counts of one `async with` run decompose into the send loop plus
`__aexit__` (the init call is neither a complete nor an abort). -/
theorem run_counts (b : Backend) (n : Nat) (c : S3Call)
    (hinit : (S3Call.initUpload == c) = false) :
    countCalls c (encrypt_and_upload_run b n).1
      = countCalls c (uploadParts b (List.range' 1 n)).1
        + countCalls c (MultipartUpload.aexit b).1 := by
  rw [encrypt_and_upload_run]
  rw [countCalls_cons, countCalls_append, hinit]
  simp

theorem run_result (b : Backend) (n : Nat) :
    (encrypt_and_upload_run b n).2
      = ((uploadParts b (List.range' 1 n)).2 && (MultipartUpload.aexit b).2) :=
  rfl

/-! ## Claim theorems -/

/-- C1 counterexample: force `SESSION.put` to fail on part 3 of 5 (with the
subsequent complete attempt failing against the aborted upload, as a real
backend behaves).  The run issues one `complete_multipart_upload` call — not
zero — and two aborts, because `__aexit__` ignores the exception information
and always attempts complete first.  This refutes the claimed "exactly one
abort call and zero complete calls". -/
theorem C1_claim_counterexample :
    ¬ (countCalls S3Call.abortUpload
          (encrypt_and_upload_run (failPutBackend 3 false) 5).1 = 1 ∧
       countCalls S3Call.completeUpload
          (encrypt_and_upload_run (failPutBackend 3 false) 5).1 = 0) ∧
    countCalls S3Call.completeUpload
        (encrypt_and_upload_run (failPutBackend 3 false) 5).1 = 1 ∧
    countCalls S3Call.abortUpload
        (encrypt_and_upload_run (failPutBackend 3 false) 5).1 = 2 := by
  decide

/-- C1 (amended): a fully successful run issues exactly one complete call
and zero aborts; a run whose `send_part` fails on part `k` of `n` issues
exactly one abort inside `send_part`, then the context exit still issues
exactly one complete attempt, plus a second abort exactly when that attempt
fails — and the run reports failure. -/
theorem C1_multipart_transaction_amended (n k : Nat) (co : Bool)
    (hk1 : 1 ≤ k) (hkn : k ≤ n) :
    (countCalls S3Call.completeUpload
        (encrypt_and_upload_run allOkBackend n).1 = 1 ∧
     countCalls S3Call.abortUpload
        (encrypt_and_upload_run allOkBackend n).1 = 0 ∧
     (encrypt_and_upload_run allOkBackend n).2 = true) ∧
    (countCalls S3Call.completeUpload
        (encrypt_and_upload_run (failPutBackend k co) n).1 = 1 ∧
     countCalls S3Call.abortUpload
        (encrypt_and_upload_run (failPutBackend k co) n).1
        = 1 + (if co then 0 else 1) ∧
     (encrypt_and_upload_run (failPutBackend k co) n).2 = false) := by
  have hall := uploadParts_allOk allOkBackend (fun _ => rfl) (fun _ => rfl)
    (List.range' 1 n)
  have hfail := uploadParts_failPut k co (List.range' 1 n)
    (by rw [List.mem_range']; exact ⟨k - 1, by omega, by omega⟩)
  have haex1 := aexit_counts allOkBackend
  have haex2 := aexit_counts (failPutBackend k co)
  constructor
  · refine ⟨?_, ?_, ?_⟩
    · rw [run_counts allOkBackend n S3Call.completeUpload rfl, hall.2.2,
        haex1.1]
    · rw [run_counts allOkBackend n S3Call.abortUpload rfl, hall.2.1,
        haex1.2.1]
      rfl
    · rw [run_result, hall.1, haex1.2.2]
      rfl
  · refine ⟨?_, ?_, ?_⟩
    · rw [run_counts (failPutBackend k co) n S3Call.completeUpload rfl,
        hfail.2.2, haex2.1]
    · rw [run_counts (failPutBackend k co) n S3Call.abortUpload rfl,
        hfail.2.1, haex2.2.1]
      rfl
    · rw [run_result, hfail.1]
      rfl

/-- Witness for the amended C1 at the claim's own scenario: failure forced
on part 3 of 5. -/
theorem C1_multipart_transaction_amended_witness :
    (1 ≤ 3 ∧ 3 ≤ 5) ∧
    countCalls S3Call.completeUpload
        (encrypt_and_upload_run (failPutBackend 3 false) 5).1 = 1 :=
  ⟨⟨by decide, by decide⟩,
   (C1_multipart_transaction_amended 5 3 false (by decide) (by decide)).2.1⟩

/-- C2: the final `encrypted_file_size` of `Encryptor.process_file`, and
equally the sum of the lengths of all yielded parts, equals
`L + 28 * ceil(L / SEGMENT_SIZE)` for every input of total length `L`; for
`L = 0` no part is yielded and the size is `0`. -/
theorem C2_encrypted_size (enc : List Nat → List Nat)
    (md5H shaH : List Nat → Nat) (part_size : Nat) (chunks : List (List Nat))
    (hps : 0 < part_size)
    (hlen : ∀ s, (enc s).length = s.length + 28) :
    (Encryptor.process_file enc md5H shaH part_size chunks).encrypted_file_size
      = chunks.flatten.length
        + 28 * ((chunks.flatten.length + SEGMENT_SIZE - 1) / SEGMENT_SIZE) ∧
    (((Encryptor.process_file enc md5H shaH part_size chunks).parts.map
        List.length).sum)
      = chunks.flatten.length
        + 28 * ((chunks.flatten.length + SEGMENT_SIZE - 1) / SEGMENT_SIZE) ∧
    (chunks.flatten.length = 0 →
      (Encryptor.process_file enc md5H shaH part_size chunks).parts = [] ∧
      (Encryptor.process_file enc md5H shaH part_size
        chunks).encrypted_file_size = 0) := by
  obtain ⟨hflat, hsize, _, hall⟩ :=
    Encryptor.process_file_spec enc md5H shaH part_size hps chunks
  have hcl := fullCipher_length enc hlen chunks.flatten
  have hsum : ((Encryptor.process_file enc md5H shaH part_size
        chunks).parts.map List.length).sum
      = (Encryptor.process_file enc md5H shaH part_size
          chunks).parts.flatten.length :=
    (List.length_flatten _).symm
  refine ⟨?_, ?_, ?_⟩
  · rw [hsize, hflat, hcl]
  · rw [hsum, hflat, hcl]
  · intro h0
    have hdata : chunks.flatten = [] := List.eq_nil_of_length_eq_zero h0
    have hfc0 : fullCipher enc [] = [] := rfl
    have hpflat : (Encryptor.process_file enc md5H shaH part_size
        chunks).parts.flatten = [] := by
      rw [hflat, hdata, hfc0]
    cases hp : (Encryptor.process_file enc md5H shaH part_size chunks).parts
      with
    | nil =>
      refine ⟨rfl, ?_⟩
      rw [hsize, hp]
      rfl
    | cons a l =>
      exfalso
      have ha := hall a (by rw [hp]; exact List.mem_cons_self a l)
      rw [hp, List.flatten_cons] at hpflat
      exact ha.2 (List.append_eq_nil.mp hpflat).1

/-- Witness for C2 with the concrete toy cipher, part size 1 and a 3-byte
file: the encrypted size is `3 + 28`. -/
theorem C2_encrypted_size_witness :
    (0 < 1 ∧ (∀ s : List Nat, (toyEnc s).length = s.length + 28)) ∧
    (Encryptor.process_file toyEnc toyHash toyHash 1
        [[1, 2, 3]]).encrypted_file_size = 31 := by
  refine ⟨⟨by decide, toyEnc_length⟩, ?_⟩
  rw [(C2_encrypted_size toyEnc toyHash toyHash 1 [[1, 2, 3]] (by decide)
    toyEnc_length).1]
  decide

/-- C3: feeding the parts yielded by `Encryptor.process_file` (with the
same part size, the segment decryption inverse to the segment encryption)
to `Decryptor.process_parts` accumulates exactly the original plaintext
into the decryptor's plaintext hash — for every plaintext, covering
`L = 0`, `L < SEGMENT_SIZE`, multiples of `SEGMENT_SIZE`, and every
remainder case. -/
theorem C3_round_trip (enc dec : List Nat → List Nat)
    (md5H shaH : List Nat → Nat) (part_size : Nat) (chunks : List (List Nat))
    (hps : 0 < part_size)
    (hlen : ∀ s, (enc s).length = s.length + 28)
    (hinv : ∀ s, dec (enc s) = s) :
    (Decryptor.process_parts dec md5H shaH part_size
        (Encryptor.process_file enc md5H shaH part_size
          chunks).parts).checksums.unencrypted_msg = chunks.flatten := by
  rw [Decryptor.process_parts_msg dec md5H shaH part_size hps,
    (Encryptor.process_file_spec enc md5H shaH part_size hps chunks).1,
    fullPlain_fullCipher enc dec hlen hinv]

/-- Witness for C3 with the concrete toy cipher on a 3-byte file. -/
theorem C3_round_trip_witness :
    (0 < 1 ∧ (∀ s : List Nat, (toyEnc s).length = s.length + 28) ∧
      (∀ s : List Nat, toyDec (toyEnc s) = s)) ∧
    (Decryptor.process_parts toyDec toyHash toyHash 1
        (Encryptor.process_file toyEnc toyHash toyHash 1
          [[1, 2, 3]]).parts).checksums.unencrypted_msg = [1, 2, 3] :=
  ⟨⟨by decide, toyEnc_length, toyDec_toyEnc⟩,
   C3_round_trip toyEnc toyDec toyHash toyHash 1 [[1, 2, 3]] (by decide)
     toyEnc_length toyDec_toyEnc⟩

/-- C4: `get_segments` returns full segments plus a remainder that
reassemble the input, with every full segment of exact width, the remainder
shorter than one segment, and the whole input as remainder when it is
shorter than one segment. -/
theorem C4_get_segments (part : List Nat) (segment_size : Nat)
    (h : 0 < segment_size) :
    (get_segments part segment_size).1.flatten
        ++ (get_segments part segment_size).2 = part ∧
    (∀ s ∈ (get_segments part segment_size).1, s.length = segment_size) ∧
    (get_segments part segment_size).2.length < segment_size ∧
    (part.length < segment_size →
      (get_segments part segment_size).1 = [] ∧
      (get_segments part segment_size).2 = part) := by
  refine ⟨get_segments_append_eq part segment_size h,
    get_segments_mem_length part segment_size,
    get_segments_snd_length part segment_size h, ?_⟩
  intro hlt
  have hfst : (get_segments part segment_size).1 = [] := by
    rw [get_segments_fst, Nat.div_eq_of_lt hlt]
    rfl
  refine ⟨hfst, ?_⟩
  have happ := get_segments_append_eq part segment_size h
  rw [hfst] at happ
  simpa using happ

/-- Witness for C4 at a 3-byte buffer and segment size 2. -/
theorem C4_get_segments_witness :
    (0 < 2) ∧
    (get_segments [7, 8, 9] 2).1.flatten ++ (get_segments [7, 8, 9] 2).2
      = [7, 8, 9] :=
  ⟨by decide, (C4_get_segments [7, 8, 9] 2 (by decide)).1⟩

/-- C5: every part size accepted by `check_adjust_part_size` lies in
`[5 MiB, 5 GiB]` and keeps `file_size / part_size ≤ 9995`; the candidate
search failing means a configuration error, and a file of
`9995 × 5 GiB + 1` bytes fails for every configured part size. -/
theorem C5_part_size_adapter (m fs : Nat) :
    (∀ ps, check_adjust_part_size m fs = some ps →
      lower_bound ≤ ps ∧ ps ≤ upper_bound ∧ fs ≤ 9995 * ps) ∧
    check_adjust_part_size m (9995 * (5 * 1024 ^ 3) + 1) = none :=
  ⟨fun ps h => check_adjust_part_size_some m fs ps h,
   check_adjust_part_size_too_large m⟩

/-- Witness for C5: a 16 MiB request on a 100-byte file is kept at 16 MiB,
which is within bounds. -/
theorem C5_part_size_adapter_witness :
    check_adjust_part_size 16 100 = some (16 * 1024 ^ 2) ∧
    (lower_bound ≤ 16 * 1024 ^ 2 ∧ 16 * 1024 ^ 2 ≤ upper_bound ∧
      100 ≤ 9995 * (16 * 1024 ^ 2)) :=
  ⟨by decide, (C5_part_size_adapter 16 100).1 (16 * 1024 ^ 2) (by decide)⟩

/-- C6: `get_ranges` produces the claimed list for `file_size = 100`,
`part_size = 30`; in general its inclusive ranges are contiguous (each
start is the previous end plus one), non-overlapping, cover exactly
`[0, file_size)`, and every window except the final truncated one spans
exactly `part_size` bytes (no window spans more). -/
theorem C6_get_ranges (file_size part_size : Nat) (hps : 0 < part_size) :
    get_ranges 100 30 = [(0, 29), (30, 59), (60, 89), (90, 99)] ∧
    List.Chain' (fun a b : Nat × Nat => b.1 = a.2 + 1)
      (get_ranges file_size part_size) ∧
    List.Pairwise (fun a b : Nat × Nat => a.2 < b.1)
      (get_ranges file_size part_size) ∧
    (∀ x, x < file_size ↔ ∃ r ∈ get_ranges file_size part_size,
      r.1 ≤ x ∧ x ≤ r.2) ∧
    (∀ r ∈ (get_ranges file_size part_size).dropLast,
      r.2 + 1 - r.1 = part_size) ∧
    (∀ r ∈ get_ranges file_size part_size,
      r.1 ≤ r.2 ∧ r.2 + 1 - r.1 ≤ part_size) := by
  have hcf := get_ranges_closed_form file_size part_size hps
  have hdm2 : part_size * ((file_size + part_size - 1) / part_size)
      + (file_size + part_size - 1) % part_size
      = file_size + part_size - 1 := Nat.div_add_mod _ part_size
  have hmod2 : (file_size + part_size - 1) % part_size < part_size :=
    Nat.mod_lt _ hps
  refine ⟨by decide, ?_, ?_, ?_, ?_, ?_⟩
  · rw [hcf, List.chain'_map]
    cases hn : (file_size + part_size - 1) / part_size with
    | zero => simp
    | succ mm =>
      rw [List.chain'_range_succ]
      intro p hp
      rw [hn] at hdm2
      have h1 : part_size * (p + 2) ≤ part_size * (mm + 1) :=
        Nat.mul_le_mul_left part_size (by omega)
      have h3 : part_size * (p + 2) = part_size * (p + 1) + part_size := by
        ring
      have h4 : 0 < part_size * (p + 1) := Nat.mul_pos hps (by omega)
      simp only [Nat.succ_eq_add_one]
      omega
  · rw [hcf, List.pairwise_map]
    refine (List.pairwise_lt_range _).imp ?_
    intro p q hpq
    have h1 : part_size * (p + 1) ≤ part_size * q :=
      Nat.mul_le_mul_left part_size (by omega)
    have h2 : 0 < part_size * q := Nat.mul_pos hps (by omega)
    omega
  · rw [hcf]
    intro x
    constructor
    · intro hx
      have hdmx : part_size * (x / part_size) + x % part_size = x :=
        Nat.div_add_mod x part_size
      have hmodx : x % part_size < part_size := Nat.mod_lt _ hps
      have hlt : x / part_size < (file_size + part_size - 1) / part_size := by
        by_contra hcon
        push_neg at hcon
        have h1 : part_size * ((file_size + part_size - 1) / part_size)
            ≤ part_size * (x / part_size) :=
          Nat.mul_le_mul_left part_size hcon
        omega
      refine ⟨(part_size * (x / part_size),
        min (part_size * (x / part_size + 1)) file_size - 1),
        List.mem_map_of_mem _ (List.mem_range.mpr hlt), ?_, ?_⟩
      · omega
      · have h3 : part_size * (x / part_size + 1)
            = part_size * (x / part_size) + part_size := by ring
        omega
    · rintro ⟨r, hr, hr1, hr2⟩
      obtain ⟨p, hp, rfl⟩ := List.mem_map.mp hr
      rw [List.mem_range] at hp
      have h4 : part_size * 1
          ≤ part_size * ((file_size + part_size - 1) / part_size) :=
        Nat.mul_le_mul_left part_size (by omega)
      have h5 : part_size * 1 = part_size := by ring
      simp only at hr1 hr2
      omega
  · rw [hcf]
    cases hn : (file_size + part_size - 1) / part_size with
    | zero => simp
    | succ mm =>
      rw [List.range_succ, List.map_append]
      simp only [List.map_cons, List.map_nil]
      rw [List.dropLast_concat]
      intro r hr
      obtain ⟨p, hp, rfl⟩ := List.mem_map.mp hr
      rw [List.mem_range] at hp
      rw [hn] at hdm2
      have h1 : part_size * (p + 2) ≤ part_size * (mm + 1) :=
        Nat.mul_le_mul_left part_size (by omega)
      have h3 : part_size * (p + 2) = part_size * (p + 1) + part_size := by
        ring
      have h4 : part_size * (p + 1) = part_size * p + part_size := by ring
      simp only
      omega
  · rw [hcf]
    intro r hr
    obtain ⟨p, hp, rfl⟩ := List.mem_map.mp hr
    rw [List.mem_range] at hp
    have h1 : part_size * (p + 1)
        ≤ part_size * ((file_size + part_size - 1) / part_size) :=
      Nat.mul_le_mul_left part_size hp
    have h3 : part_size * (p + 1) = part_size * p + part_size := by ring
    simp only
    omega

/-- Witness for C6: the coverage property evaluated at
`file_size = 100, part_size = 30, x = 95`. -/
theorem C6_get_ranges_witness :
    (0 < 30) ∧ (95 < 100 ↔ ∃ r ∈ get_ranges 100 30, r.1 ≤ 95 ∧ 95 ≤ r.2) :=
  ⟨by decide, (C6_get_ranges 100 30 (by decide)).2.2.2.1 95⟩

/-- C7: the parts yielded by `Encryptor.process_file` are an ordered list
whose 1-based `enumerate` numbering is strictly increasing and contiguous,
whose concatenation in emission order is exactly the one-shot ciphertext of
the whole input (no ciphertext byte lost or duplicated across part
boundaries), with every part exactly `part_size` bytes except possibly the
final one, which is shorter but never empty. -/
theorem C7_parts_shape (enc : List Nat → List Nat)
    (md5H shaH : List Nat → Nat) (part_size : Nat) (chunks : List (List Nat))
    (hps : 0 < part_size) :
    (Encryptor.process_file enc md5H shaH part_size chunks).parts.flatten
        = fullCipher enc chunks.flatten ∧
    (∀ p ∈ (Encryptor.process_file enc md5H shaH part_size
        chunks).parts.dropLast, p.length = part_size) ∧
    (∀ p ∈ (Encryptor.process_file enc md5H shaH part_size chunks).parts,
        p.length ≤ part_size ∧ p ≠ []) ∧
    (((Encryptor.process_file enc md5H shaH part_size
        chunks).parts.enumFrom 1).map Prod.fst
      = List.range' 1 (Encryptor.process_file enc md5H shaH part_size
          chunks).parts.length ∧
     List.Chain' (· < ·)
      (List.range' 1 (Encryptor.process_file enc md5H shaH part_size
          chunks).parts.length)) := by
  obtain ⟨hflat, _, hdrop, hall⟩ :=
    Encryptor.process_file_spec enc md5H shaH part_size hps chunks
  exact ⟨hflat, hdrop, hall,
    List.enumFrom_map_fst 1 _,
    (List.pairwise_lt_range' 1 _).chain'⟩

/-- Witness for C7: the toy cipher on a 3-byte file with part size 1 yields
parts whose concatenation is the full ciphertext. -/
theorem C7_parts_shape_witness :
    (0 < 1) ∧
    (Encryptor.process_file toyEnc toyHash toyHash 1 [[1, 2, 3]]).parts.flatten
      = fullCipher toyEnc [[1, 2, 3]].flatten :=
  ⟨by decide,
   (C7_parts_shape toyEnc toyHash toyHash 1 [[1, 2, 3]] (by decide)).1⟩

/-- C8: `send_part` never calls complete; on success it issues no abort;
on any failure (URL request or byte transfer) it issues exactly one abort,
as the last call before the error propagates. -/
theorem C8_send_part (b : Backend) (part_number : Nat) :
    countCalls S3Call.completeUpload
        (MultipartUpload.send_part b part_number).1 = 0 ∧
    ((MultipartUpload.send_part b part_number).2 = true →
      countCalls S3Call.abortUpload
        (MultipartUpload.send_part b part_number).1 = 0) ∧
    ((MultipartUpload.send_part b part_number).2 = false →
      countCalls S3Call.abortUpload
        (MultipartUpload.send_part b part_number).1 = 1 ∧
      (MultipartUpload.send_part b part_number).1.getLast?
        = some S3Call.abortUpload) := by
  rw [MultipartUpload.send_part]
  by_cases h1 : b.partUrlOk part_number = true
  · rw [if_pos h1]
    by_cases h2 : b.putOk part_number = true
    · rw [if_pos h2]
      exact ⟨rfl, fun _ => rfl, fun hc => by simp at hc⟩
    · rw [if_neg h2]
      exact ⟨rfl, fun hc => by simp at hc, fun _ => ⟨rfl, rfl⟩⟩
  · rw [if_neg h1]
    exact ⟨rfl, fun hc => by simp at hc, fun _ => ⟨rfl, rfl⟩⟩

/-- Witness for C8: a forced put failure on part 1 issues exactly one abort
which is the final call. -/
theorem C8_send_part_witness :
    (MultipartUpload.send_part (failPutBackend 1 false) 1).2 = false ∧
    countCalls S3Call.abortUpload
      (MultipartUpload.send_part (failPutBackend 1 false) 1).1 = 1 :=
  ⟨by decide,
   ((C8_send_part (failPutBackend 1 false) 1).2.2 (by decide)).1⟩

/-- C9: `validate_checksums` raises exactly when the two checksum triples
(running plaintext digest, ordered per-part MD5 list, ordered per-part
SHA-256 list) differ; in particular differing plaintext digests alone force
the failure, and equal triples let the run proceed. -/
theorem C9_validate_checksums (sha256H : List Nat → Nat)
    (target_checksums checkums : Checksums) :
    (validate_checksums sha256H target_checksums checkums = false ↔
      Checksums.get sha256H target_checksums
        ≠ Checksums.get sha256H checkums) ∧
    (validate_checksums sha256H target_checksums checkums = true ↔
      Checksums.get sha256H target_checksums
        = Checksums.get sha256H checkums) ∧
    (sha256H target_checksums.unencrypted_msg
        ≠ sha256H checkums.unencrypted_msg →
      validate_checksums sha256H target_checksums checkums = false) := by
  refine ⟨by simp [validate_checksums], by simp [validate_checksums], ?_⟩
  intro hne
  have hdiff : Checksums.get sha256H target_checksums
      ≠ Checksums.get sha256H checkums := by
    intro heq
    exact hne (congrArg Prod.fst heq)
  simp [validate_checksums, hdiff]

/-- Witness for C9: a one-byte plaintext difference under the length
"digest" forces the mismatch error. -/
theorem C9_validate_checksums_witness :
    validate_checksums toyHash ⟨[0], [], []⟩ ⟨[], [], []⟩ = false :=
  (C9_validate_checksums toyHash ⟨[0], [], []⟩ ⟨[], [], []⟩).2.2 (by decide)

/-- C10: absorbing consecutive slices into the running plaintext hash is
the same as absorbing their concatenation, so the source's per-iteration
single-slice `if` drain and a per-iteration `while` drain produce the same
final plaintext hash input in `Decryptor.process_parts` — on every
ciphertext chunk stream. -/
theorem C10_hash_grouping (dec : List Nat → List Nat)
    (md5H shaH : List Nat → Nat) (part_size : Nat) (chunks : List (List Nat))
    (hps : 0 < part_size) :
    (∀ (c : Checksums) (a b : List Nat),
      (c.update_unencrypted a).update_unencrypted b
        = c.update_unencrypted (a ++ b)) ∧
    (Decryptor.process_parts dec md5H shaH part_size
        chunks).checksums.unencrypted_msg
      = (Decryptor.process_parts_whileDrain dec md5H shaH part_size
          chunks).checksums.unencrypted_msg := by
  constructor
  · intro c a b
    simp [Checksums.update_unencrypted, List.append_assoc]
  · rw [Decryptor.process_parts_msg dec md5H shaH part_size hps,
      Decryptor.process_parts_whileDrain_msg dec md5H shaH part_size hps]

/-- Witness for C10 on a concrete two-chunk stream. -/
theorem C10_hash_grouping_witness :
    (0 < 2) ∧
    (Decryptor.process_parts toyDec toyHash toyHash 2
        [[1, 2, 3], [4]]).checksums.unencrypted_msg
      = (Decryptor.process_parts_whileDrain toyDec toyHash toyHash 2
          [[1, 2, 3], [4]]).checksums.unencrypted_msg :=
  ⟨by decide,
   (C10_hash_grouping toyDec toyHash toyHash 2 [[1, 2, 3], [4]]
     (by decide)).2⟩
